import Mathlib

/-!
Shallow embedding of the ray-tracer core (vector kernel, ray, scene graph,
materials, integrator, canvas). `f64` values are modelled as real numbers;
`Range<f64>` endpoints as extended reals so that `f64::INFINITY` is `⊤`;
the thread-local random generator as an explicit stream of real draws.
-/

namespace RayTracer

noncomputable section

open Classical

/-- Embeds `Vector3` from `src/vector.rs`: a triple of reals. -/
structure Vector3 where
  x : ℝ
  y : ℝ
  z : ℝ

abbrev Color3 := Vector3
abbrev Point3 := Vector3

/-- `EPSILON` from `src/vector.rs`. -/
def EPSILON : ℝ := 1e-8

/-- `TWO_PI` from `src/vector.rs`. -/
def TWO_PI : ℝ := 2 * Real.pi

instance : Neg Vector3 := ⟨fun v => ⟨-v.x, -v.y, -v.z⟩⟩

instance : Add Vector3 := ⟨fun v w => ⟨v.x + w.x, v.y + w.y, v.z + w.z⟩⟩

instance : Sub Vector3 := ⟨fun v w => ⟨v.x - w.x, v.y - w.y, v.z - w.z⟩⟩

/-- Component-wise `Mul for Vector3`. -/
instance : Mul Vector3 := ⟨fun v w => ⟨v.x * w.x, v.y * w.y, v.z * w.z⟩⟩

/-- Scalar `Mul<f64> for Vector3`. -/
instance : HMul Vector3 ℝ Vector3 := ⟨fun v t => ⟨v.x * t, v.y * t, v.z * t⟩⟩

/-- `MulAssign<f64> for Vector3` as written in the source: the third
component receives `self.2 += t` rather than `self.2 *= t`. -/
def Vector3.mul_assign (v : Vector3) (t : ℝ) : Vector3 :=
  ⟨v.x * t, v.y * t, v.z + t⟩

/-- `Div<f64> for Vector3`: `self * (1. / t)`. -/
instance : HDiv Vector3 ℝ Vector3 := ⟨fun v t => v * (1 / t)⟩

namespace Vector3

def length_squared (v : Vector3) : ℝ :=
  v.x * v.x + v.y * v.y + v.z * v.z

def length (v : Vector3) : ℝ :=
  Real.sqrt v.length_squared

def dot (v w : Vector3) : ℝ :=
  v.x * w.x + v.y * w.y + v.z * w.z

def cross (v w : Vector3) : Vector3 :=
  ⟨v.y * w.z - v.z * w.y, v.z * w.x - v.x * w.z, v.x * w.y - v.y * w.x⟩

def unit (v : Vector3) : Vector3 :=
  v / v.length

def near_zero (v : Vector3) : Prop :=
  |v.x| < EPSILON ∧ |v.y| < EPSILON ∧ |v.z| < EPSILON

def reflect (v normal : Vector3) : Vector3 :=
  v - normal * (2 : ℝ) * v.dot normal

end Vector3

/-- Embeds `Ray` from `src/ray.rs`. -/
structure Ray where
  origin : Point3
  direction : Vector3

namespace Ray

/-- `Ray::new`: stores the origin and the unit-normalized direction. -/
def new (origin : Point3) (direction : Vector3) : Ray :=
  ⟨origin, direction.unit⟩

/-- `Ray::at(t) = origin + direction * t` (`at` is a Lean keyword, hence the
name `pointAt`). -/
def pointAt (r : Ray) (t : ℝ) : Point3 :=
  r.origin + r.direction * t

end Ray

/-- Embeds `std::ops::Range<f64>`; endpoints live in `EReal` so that
`f64::INFINITY` is representable as `⊤`. -/
structure Rangef where
  start : EReal
  stop : EReal

/-- `Range::contains(&t)`: `start <= t && t < end`. -/
def Rangef.contains (rg : Rangef) (t : ℝ) : Prop :=
  rg.start ≤ (t : EReal) ∧ (t : EReal) < rg.stop

/-- The three material variants of `src/material.rs` as a closed sum
(`LambertianMaterial`, `MirrorMaterial`, `DialectricMaterial`). -/
inductive Material where
  | lambertian (albedo : Color3)
  | mirror (albedo : Color3) (fuzziness : ℝ)
  | dialectric (refractive_index : ℝ)

/-- Embeds `Hit` from `src/hittable.rs`; the `&dyn Material` reference is
modelled by the material value itself. -/
structure Hit where
  point : Point3
  normal : Vector3
  distance : ℝ
  material : Material

/-- Embeds `ScatteredHit` from `src/material.rs` (the field name keeps the
source's spelling). -/
structure ScatteredHit where
  ray : Ray
  attentuation : Color3

/-- The thread-local `ThreadRng`, modelled as a stream of real draws plus a
cursor; each `gen_range` call consumes one draw. The distribution and the
bounds of the draws are not modelled. -/
structure RNG where
  seq : ℕ → ℝ
  idx : ℕ

/-- One `rng.gen_range(lo..hi)` call: yields the next draw of the stream and
advances the cursor (the requested bounds are not modelled). -/
def RNG.gen_range (g : RNG) : ℝ × RNG :=
  (g.seq g.idx, ⟨g.seq, g.idx + 1⟩)

/-- `Vector3::rand_unit`: two angle draws mapped through spherical
coordinates. -/
def RNG.rand_unit (g : RNG) : Vector3 × RNG :=
  let ag := g.gen_range
  let bg := ag.2.gen_range
  (⟨Real.sin ag.1 * Real.cos bg.1, Real.sin ag.1 * Real.sin bg.1,
    Real.cos ag.1⟩, bg.2)

/-- `LambertianMaterial::scatter` from `src/material.rs`. -/
def lambertianScatter (albedo : Color3) (_ray : Ray) (hit : Hit) (g : RNG) :
    Option ScatteredHit × RNG :=
  let ug := g.rand_unit
  let bounce_direction := hit.normal + ug.1
  let bounce_ray := Ray.new hit.point
    (if bounce_direction.near_zero then hit.normal else bounce_direction)
  (some ⟨bounce_ray, albedo⟩, ug.2)

/-- `MirrorMaterial::scatter` from `src/material.rs`. -/
def mirrorScatter (albedo : Color3) (fuzziness : ℝ) (ray : Ray) (hit : Hit)
    (g : RNG) : Option ScatteredHit × RNG :=
  let reflected := ray.direction.reflect hit.normal
  let ug := g.rand_unit
  let bounce_direction := reflected + ug.1 * fuzziness
  (if bounce_direction.dot hit.normal > 0 then
    some ⟨Ray.new hit.point bounce_direction, albedo⟩
  else none, ug.2)

/-- `reflectance` (Schlick approximation) from `src/material.rs`. -/
def reflectance (cos_theta refraction_index : ℝ) : ℝ :=
  let r_root := (1 - refraction_index) / (1 + refraction_index)
  let r := r_root * r_root
  r + (1 - r) * (1 - cos_theta) ^ 5

/-- `DialectricMaterial::scatter` from `src/material.rs`. The `||` in the
reflect test short-circuits, so the random draw is consumed only when total
internal reflection does not already force a reflection. -/
def dialectricScatter (refractive_index : ℝ) (ray : Ray) (hit : Hit)
    (g : RNG) : Option ScatteredHit × RNG :=
  let rn : ℝ × Vector3 :=
    if ray.direction.dot hit.normal < 0 then
      (1 / refractive_index, hit.normal)
    else
      (refractive_index, -hit.normal)
  let refraction_ratio := rn.1
  let normal := rn.2
  let cos_theta := normal.dot (-ray.direction)
  let sin_theta := Real.sqrt (1 - cos_theta * cos_theta)
  let bg : Vector3 × RNG :=
    if sin_theta * refraction_ratio > 1 then
      (ray.direction.reflect normal, g)
    else
      let ug := g.gen_range
      if reflectance cos_theta refraction_ratio > ug.1 then
        (ray.direction.reflect normal, ug.2)
      else
        let refracted_perpendicular :=
          (ray.direction + normal * cos_theta) * refraction_ratio
        let refracted_parallel :=
          normal * (-Real.sqrt |1 - refracted_perpendicular.length_squared|)
        (refracted_parallel + refracted_perpendicular, ug.2)
  (some ⟨Ray.new hit.point bg.1, ⟨1, 1, 1⟩⟩, bg.2)

/-- Dynamic dispatch of the `Material` trait over the three implementors. -/
def Material.scatter : Material → Ray → Hit → RNG → Option ScatteredHit × RNG
  | .lambertian albedo => lambertianScatter albedo
  | .mirror albedo fuzziness => mirrorScatter albedo fuzziness
  | .dialectric refractive_index => dialectricScatter refractive_index

/-- Embeds `Sphere` from `src/hittable.rs`. -/
structure Sphere where
  center : Point3
  radius : ℝ
  material : Material

/-- `Sphere::hit` from `src/hittable.rs`: solve the half-b quadratic, treat
discriminant ≤ 0 as a miss, prefer the smaller root when it is in range. -/
def sphereHit (s : Sphere) (ray : Ray) (range : Rangef) : Option Hit :=
  let sphere_to_origin := ray.origin - s.center
  let a := ray.direction.length_squared
  let b := ray.direction.dot sphere_to_origin
  let c := sphere_to_origin.length_squared - s.radius * s.radius
  let discriminant := b * b - a * c
  if discriminant ≤ 0 then none
  else
    let dis_sqrt := Real.sqrt discriminant
    let t1 := (-b - dis_sqrt) / a
    let t2 := (-b + dis_sqrt) / a
    let mkHit : ℝ → Hit := fun t =>
      ⟨ray.pointAt t, (ray.pointAt t - s.center) / s.radius, t, s.material⟩
    if range.contains t1 then some (mkHit t1)
    else if range.contains t2 then some (mkHit t2)
    else none

/-- A `&dyn Hittable`: the intersection contract `hit(ray, range)`. -/
abbrev Hittable := Ray → Rangef → Option Hit

/-- The loop body accumulator of `World::hit`: keep the incoming hit when the
current closest is absent or strictly farther. -/
def closerHit (acc : Option Hit) (h : Hit) : Option Hit :=
  match acc with
  | none => some h
  | some x => if x.distance > h.distance then some h else acc

/-- One iteration of the `World::hit` loop: fold the report of one shape
into the accumulated closest hit (`if let Some(hit) = shape.hit(...)`). -/
def stepHit (acc : Option Hit) (rep : Option Hit) : Option Hit :=
  match rep with
  | none => acc
  | some h => closerHit acc h

/-- The scan loop of `World::hit` over the remaining shapes. -/
def worldHitGo (ray : Ray) (range : Rangef) :
    List Hittable → Option Hit → Option Hit
  | [], acc => acc
  | s :: rest, acc => worldHitGo ray range rest (stepHit acc (s ray range))

/-- `World::hit` (`impl Hittable for World`): linear scan keeping the hit
with the smallest distance; the `Vec` of shapes is modelled as a list. -/
def worldHit (shapes : List Hittable) (ray : Ray) (range : Rangef) :
    Option Hit :=
  worldHitGo ray range shapes none

/-- The interval `Range { start: 0.01, end: f64::INFINITY }` used by
`compute_ray` in `src/render.rs`. -/
def shadowRange : Rangef := ⟨((0.01 : ℝ) : EReal), ⊤⟩

/-- `compute_ray` from `src/render.rs`: at depth 0 return black; otherwise
query the world, scatter at a hit (black on absorption), and on a miss
return the sky colour `white * (1 - a) + blue * a` with
`a = direction.y * 0.5 + 1.`. -/
def computeRay : Ray → Hittable → RNG → ℕ → Color3
  | _, _, _, 0 => ⟨0, 0, 0⟩
  | ray, world, g, d + 1 =>
    match world ray shadowRange with
    | some h =>
      match h.material.scatter ray h g with
      | (some s, g1) => computeRay s.ray world g1 d * s.attentuation
      | (none, _) => ⟨0, 0, 0⟩
    | none =>
      let a := ray.direction.y * 0.5 + 1
      (⟨1, 1, 1⟩ : Color3) * (1 - a) + (⟨0.5, 0.7, 1⟩ : Color3) * a

/-- Embeds `Canvas` from `src/render.rs`; the pixel `HashMap` is modelled as
a partial map from coordinates to colors. -/
structure Canvas where
  width : ℕ
  height : ℕ
  pixels : ℕ × ℕ → Option Color3
  default : Color3

namespace Canvas

/-- `Canvas::new`: empty pixel map, default color black. -/
def new (width height : ℕ) : Canvas :=
  ⟨width, height, fun _ => none, ⟨0, 0, 0⟩⟩

/-- `Canvas::get_pixel`: the stored color, or the default when unset. -/
def get_pixel (c : Canvas) (x y : ℕ) : Color3 :=
  match c.pixels (x, y) with
  | some col => col
  | none => c.default

/-- `Canvas::put_pixel`: `HashMap::insert`, overwriting any previous entry. -/
def put_pixel (c : Canvas) (x y : ℕ) (color : Color3) : Canvas :=
  { c with pixels := fun p => if p = (x, y) then some color else c.pixels p }

/-- A sequence of `put_pixel` calls applied in order. -/
def apply_puts (c : Canvas) (ops : List ((ℕ × ℕ) × Color3)) : Canvas :=
  ops.foldl (fun acc op => acc.put_pixel op.1.1 op.1.2 op.2) c

end Canvas

/-! ### Component-evaluation lemmas for the vector operations -/

@[simp] theorem vneg_mk (v : Vector3) : -v = ⟨-v.x, -v.y, -v.z⟩ := rfl

@[simp] theorem vadd_mk (v w : Vector3) :
    v + w = ⟨v.x + w.x, v.y + w.y, v.z + w.z⟩ := rfl

@[simp] theorem vsub_mk (v w : Vector3) :
    v - w = ⟨v.x - w.x, v.y - w.y, v.z - w.z⟩ := rfl

@[simp] theorem vmul_mk (v w : Vector3) :
    v * w = ⟨v.x * w.x, v.y * w.y, v.z * w.z⟩ := rfl

@[simp] theorem vsmul_mk (v : Vector3) (t : ℝ) :
    v * t = ⟨v.x * t, v.y * t, v.z * t⟩ := rfl

@[simp] theorem vdiv_mk (v : Vector3) (t : ℝ) :
    v / t = ⟨v.x * (1 / t), v.y * (1 / t), v.z * (1 / t)⟩ := rfl

/-! ### Claim theorems -/

/-- C5: the compound scalar assignment `*=` does NOT agree with the scalar
product `*`: the implementation of `MulAssign<f64>` adds `t` to the third
component instead of multiplying, so at `v = (1,2,3)`, `t = 2` the compound
assignment leaves `(2,4,5)` while `v * t = (2,4,6)`. -/
theorem vector_mul_assign_scalar_bug :
    Vector3.mul_assign ⟨1, 2, 3⟩ 2 = (⟨2, 4, 5⟩ : Vector3) ∧
    (⟨1, 2, 3⟩ : Vector3) * (2 : ℝ) = (⟨2, 4, 6⟩ : Vector3) ∧
    Vector3.mul_assign ⟨1, 2, 3⟩ 2 ≠ (⟨1, 2, 3⟩ : Vector3) * (2 : ℝ) := by
  refine ⟨by simp [Vector3.mul_assign]; norm_num, by simp; norm_num, ?_⟩
  simp [Vector3.mul_assign]
  norm_num

/-- C6: `LambertianMaterial::scatter` always returns `Some`, and
`MirrorMaterial::scatter` returns `None` exactly when the perturbed
reflected direction `reflect(d, n) + fuzziness * rand_unit` has
non-positive dot product with the hit normal. -/
theorem lambertian_always_mirror_none_iff :
    (∀ (albedo : Color3) (r : Ray) (h : Hit) (g : RNG),
      (lambertianScatter albedo r h g).1.isSome = true) ∧
    (∀ (albedo : Color3) (fuzziness : ℝ) (r : Ray) (h : Hit) (g : RNG),
      ((mirrorScatter albedo fuzziness r h g).1 = none ↔
        (r.direction.reflect h.normal + g.rand_unit.1 * fuzziness).dot
          h.normal ≤ 0)) := by
  constructor
  · intro albedo r h g
    rfl
  · intro albedo fuzziness r h g
    simp only [mirrorScatter]
    split_ifs with hc
    · simpa using not_le.mpr hc
    · simpa using not_lt.mp hc

/-- C7: `DialectricMaterial::scatter` always returns `Some`, and the
attenuation of the scattered hit is always white `(1,1,1)`, in both the
reflect and the refract branch. -/
theorem dialectric_scatter_always_white :
    ∀ (refractive_index : ℝ) (r : Ray) (h : Hit) (g : RNG),
      Option.map ScatteredHit.attentuation
        (dialectricScatter refractive_index r h g).1 =
        some (⟨1, 1, 1⟩ : Color3) := by
  intro refractive_index r h g
  rfl

/-- C8: `compute_ray` at depth 0 returns exactly black, for every ray,
world and random state. -/
theorem compute_ray_depth_zero_black :
    ∀ (r : Ray) (w : Hittable) (g : RNG),
      computeRay r w g 0 = (⟨0, 0, 0⟩ : Color3) := by
  intro r w g
  rfl

/-- C10: the bounce recursion of `compute_ray` is well-founded on the depth
argument: at depth 0 it returns immediately, and at depth `d + 1` every
recursive call is made at depth exactly `d`. The Lean embedding is accepted
by structural recursion on the depth, which certifies termination. -/
theorem compute_ray_depth_recursion :
    (∀ (r : Ray) (w : Hittable) (g : RNG),
      computeRay r w g 0 = (⟨0, 0, 0⟩ : Color3)) ∧
    (∀ (r : Ray) (w : Hittable) (g : RNG) (d : ℕ),
      computeRay r w g (d + 1) =
        match w r shadowRange with
        | some h =>
          match h.material.scatter r h g with
          | (some s, g1) => computeRay s.ray w g1 d * s.attentuation
          | (none, _) => (⟨0, 0, 0⟩ : Color3)
        | none =>
          (⟨1, 1, 1⟩ : Color3) * (1 - (r.direction.y * 0.5 + 1)) +
            (⟨0.5, 0.7, 1⟩ : Color3) * (r.direction.y * 0.5 + 1)) := by
  constructor
  · intro r w g
    rfl
  · intro r w g d
    rfl

/-! ### Canvas lemmas -/

theorem apply_puts_untouched (ops : List ((ℕ × ℕ) × Color3)) (c : Canvas)
    (x y : ℕ) (hxy : (x, y) ∉ ops.map Prod.fst) :
    (c.apply_puts ops).pixels (x, y) = c.pixels (x, y) ∧
    (c.apply_puts ops).default = c.default := by
  induction ops generalizing c with
  | nil => exact ⟨rfl, rfl⟩
  | cons op rest ih =>
    simp only [List.map_cons, List.mem_cons, not_or] at hxy
    have step := ih (c.put_pixel op.1.1 op.1.2 op.2) hxy.2
    refine ⟨step.1.trans ?_, step.2⟩
    simp only [Canvas.put_pixel]
    rw [if_neg]
    intro hcontra
    exact hxy.1 (hcontra.trans (Prod.mk.eta))

/-- C9: a pixel never written by `put_pixel` reads back as the default
black `(0,0,0)`, and `put_pixel` followed by `get_pixel` at the same
coordinate round-trips exactly. -/
theorem canvas_unset_default_and_roundtrip :
    (∀ (w h : ℕ) (ops : List ((ℕ × ℕ) × Color3)) (x y : ℕ),
      (x, y) ∉ ops.map Prod.fst →
      ((Canvas.new w h).apply_puts ops).get_pixel x y = (⟨0, 0, 0⟩ : Color3)) ∧
    (∀ (c : Canvas) (x y : ℕ) (color : Color3),
      (c.put_pixel x y color).get_pixel x y = color) := by
  constructor
  · intro w h ops x y hxy
    have huntouched := apply_puts_untouched ops (Canvas.new w h) x y hxy
    unfold Canvas.get_pixel
    rw [huntouched.1, huntouched.2]
    rfl
  · intro c x y color
    simp [Canvas.get_pixel, Canvas.put_pixel]

/-- Witness for C9 at a concrete canvas: writing only pixel `(0,0)` leaves
pixel `(1,1)` at black, and a written pixel reads back its color. -/
theorem canvas_unset_default_and_roundtrip_witness :
    ((1, 1) : ℕ × ℕ) ∉
      ([(((0, 0) : ℕ × ℕ), (⟨1, 0, 0⟩ : Color3))].map Prod.fst) ∧
    ((Canvas.new 4 4).apply_puts [((0, 0), ⟨1, 0, 0⟩)]).get_pixel 1 1 =
      (⟨0, 0, 0⟩ : Color3) ∧
    ((Canvas.new 4 4).put_pixel 2 3 ⟨0.5, 0.25, 1⟩).get_pixel 2 3 =
      (⟨0.5, 0.25, 1⟩ : Color3) := by
  have hnot : ((1, 1) : ℕ × ℕ) ∉
      ([(((0, 0) : ℕ × ℕ), (⟨1, 0, 0⟩ : Color3))].map Prod.fst) := by
    simp
  exact ⟨hnot,
    canvas_unset_default_and_roundtrip.1 4 4 [((0, 0), ⟨1, 0, 0⟩)] 1 1 hnot,
    canvas_unset_default_and_roundtrip.2 (Canvas.new 4 4) 2 3 ⟨0.5, 0.25, 1⟩⟩

/-! ### The sky-gradient formula of compute_ray (C1) -/

/-- A concrete upward ray: origin at the world origin, unit direction
`(0, 1, 0)`. -/
def rayUp : Ray := ⟨⟨0, 0, 0⟩, ⟨0, 1, 0⟩⟩

/-- A concrete random state (all draws 0). -/
def gZero : RNG := ⟨fun _ => 0, 0⟩

/-- C1: the code disagrees with the claimed sky gradient. `compute_ray`
computes `a = direction.y * 0.5 + 1.`, not `0.5 * direction.y + 0.5`: for
the upward ray in an empty world it returns `(0.25, 0.55, 1.0)`, while the
claimed formula (`a = 1`) gives exactly `(0.5, 0.7, 1.0)`. -/
theorem compute_ray_sky_formula_bug :
    computeRay rayUp (worldHit []) gZero 1 = (⟨0.25, 0.55, 1⟩ : Color3) ∧
    (⟨1, 1, 1⟩ : Color3) * (1 - (0.5 * rayUp.direction.y + 0.5)) +
      (⟨0.5, 0.7, 1⟩ : Color3) * (0.5 * rayUp.direction.y + 0.5) =
      (⟨0.5, 0.7, 1⟩ : Color3) ∧
    (⟨0.25, 0.55, 1⟩ : Color3) ≠ (⟨0.5, 0.7, 1⟩ : Color3) := by
  refine ⟨?_, ?_, ?_⟩
  · show (⟨1, 1, 1⟩ : Color3) * (1 - (rayUp.direction.y * 0.5 + 1)) +
      (⟨0.5, 0.7, 1⟩ : Color3) * (rayUp.direction.y * 0.5 + 1) =
      (⟨0.25, 0.55, 1⟩ : Color3)
    simp [rayUp]
    norm_num
  · simp [rayUp]
    norm_num
  · simp
    norm_num

/-! ### Sphere intersection (C2) -/

/-- C2: `Sphere::hit` misses whenever the half-b discriminant `b² - a·c` is
at most zero (tangency included); otherwise it returns the smaller root
`(-b - √disc)/a` when that is in the caller's interval, else the larger
root `(-b + √disc)/a` when that is in the interval, else none. -/
theorem sphere_hit_root_selection (s : Sphere) (ray : Ray) (rg : Rangef)
    (a b c disc t1 t2 : ℝ)
    (ha : a = ray.direction.length_squared)
    (hb : b = ray.direction.dot (ray.origin - s.center))
    (hc : c = (ray.origin - s.center).length_squared - s.radius * s.radius)
    (hdisc : disc = b * b - a * c)
    (ht1 : t1 = (-b - Real.sqrt disc) / a)
    (ht2 : t2 = (-b + Real.sqrt disc) / a) :
    (disc ≤ 0 → sphereHit s ray rg = none) ∧
    (0 < disc → rg.contains t1 →
      Option.map Hit.distance (sphereHit s ray rg) = some t1) ∧
    (0 < disc → ¬rg.contains t1 → rg.contains t2 →
      Option.map Hit.distance (sphereHit s ray rg) = some t2) ∧
    (0 < disc → ¬rg.contains t1 → ¬rg.contains t2 →
      sphereHit s ray rg = none) := by
  subst ha hb hc hdisc ht1 ht2
  unfold sphereHit
  refine ⟨fun hle => ?_, fun hpos h1 => ?_, fun hpos h1 h2 => ?_,
    fun hpos h1 h2 => ?_⟩
  · rw [if_pos hle]
  · rw [if_neg (not_le.mpr hpos), if_pos h1]
    rfl
  · rw [if_neg (not_le.mpr hpos), if_neg h1, if_pos h2]
    rfl
  · rw [if_neg (not_le.mpr hpos), if_neg h1, if_neg h2]

/-- A sphere of radius 1 two units in front of the origin. -/
def sphereFront : Sphere := ⟨⟨0, 0, -2⟩, 1, .lambertian ⟨1, 0, 0⟩⟩

/-- A concrete ray looking down the negative z axis (unit direction). -/
def rayFwd : Ray := ⟨⟨0, 0, 0⟩, ⟨0, 0, -1⟩⟩

/-- Witness for C2: for `rayFwd` against `sphereFront` the discriminant is
`1 > 0`, the smaller root `t1 = 1` lies in `[0.01, ∞)`, and `Sphere::hit`
reports distance 1. -/
theorem sphere_hit_root_selection_witness :
    (0 : ℝ) < 1 ∧ shadowRange.contains 1 ∧
    Option.map Hit.distance (sphereHit sphereFront rayFwd shadowRange) =
      some 1 := by
  have hcont : shadowRange.contains 1 := by
    constructor
    · show ((0.01 : ℝ) : EReal) ≤ ((1 : ℝ) : EReal)
      exact_mod_cast (by norm_num : (0.01 : ℝ) ≤ 1)
    · exact EReal.coe_lt_top 1
  have hA : rayFwd.direction.length_squared = 1 := by
    simp [rayFwd, Vector3.length_squared]
  have hB : rayFwd.direction.dot (rayFwd.origin - sphereFront.center) = -2 := by
    simp [rayFwd, sphereFront, Vector3.dot]
  have hC : (rayFwd.origin - sphereFront.center).length_squared -
      sphereFront.radius * sphereFront.radius = 3 := by
    simp [rayFwd, sphereFront, Vector3.length_squared]
    norm_num
  have hD : (1 : ℝ) = (-2 : ℝ) * (-2) - 1 * 3 := by norm_num
  have hT1 : (1 : ℝ) = (-(-2 : ℝ) - Real.sqrt 1) / 1 := by
    rw [Real.sqrt_one]; norm_num
  have hT2 : (3 : ℝ) = (-(-2 : ℝ) + Real.sqrt 1) / 1 := by
    rw [Real.sqrt_one]; norm_num
  have key := (sphere_hit_root_selection sphereFront rayFwd shadowRange
    1 (-2) 3 1 1 3 hA.symm hB.symm hC.symm hD hT1 hT2).2.1
  exact ⟨by norm_num, hcont, key (by norm_num) hcont⟩

/-! ### World nearest-hit resolution (C3) -/

theorem closerHit_none (h : Hit) : closerHit none h = some h := rfl

theorem closerHit_some (x h : Hit) :
    closerHit (some x) h =
      if x.distance > h.distance then some h else some x := rfl

theorem closerHit_tie (x h : Hit) (hnot : ¬x.distance > h.distance) :
    closerHit (some x) h = some x := by
  rw [closerHit_some, if_neg hnot]

theorem closerHit_isSome (acc : Option Hit) (h : Hit) :
    (closerHit acc h).isSome = true := by
  cases acc with
  | none => rfl
  | some x =>
    rw [closerHit_some]
    split_ifs <;> rfl

theorem stepHit_none (acc : Option Hit) : stepHit acc none = acc := rfl

theorem stepHit_some (acc : Option Hit) (h : Hit) :
    stepHit acc (some h) = closerHit acc h := rfl

theorem worldHitGo_nil (ray : Ray) (rg : Rangef) (acc : Option Hit) :
    worldHitGo ray rg [] acc = acc := rfl

theorem worldHitGo_cons (ray : Ray) (rg : Rangef) (s : Hittable)
    (rest : List Hittable) (acc : Option Hit) :
    worldHitGo ray rg (s :: rest) acc =
      worldHitGo ray rg rest (stepHit acc (s ray rg)) := rfl

theorem worldHitGo_eq_none_iff (ray : Ray) (rg : Rangef)
    (l : List Hittable) (acc : Option Hit) :
    worldHitGo ray rg l acc = none ↔
      acc = none ∧ ∀ s ∈ l, s ray rg = none := by
  induction l generalizing acc with
  | nil => simp [worldHitGo_nil]
  | cons s rest ih =>
    rw [worldHitGo_cons, ih]
    cases hs : s ray rg with
    | none =>
      rw [stepHit_none]
      simp only [List.mem_cons]
      constructor
      · rintro ⟨hacc, hrest⟩
        refine ⟨hacc, fun t ht => ?_⟩
        rcases ht with rfl | ht
        · exact hs
        · exact hrest t ht
      · rintro ⟨hacc, hall⟩
        exact ⟨hacc, fun t ht => hall t (Or.inr ht)⟩
    | some h =>
      rw [stepHit_some]
      constructor
      · rintro ⟨hacc, -⟩
        have hcontra := closerHit_isSome acc h
        rw [hacc] at hcontra
        cases hcontra
      · rintro ⟨-, hall⟩
        have hcontra := hall s (List.mem_cons_self s rest)
        rw [hs] at hcontra
        cases hcontra

theorem worldHitGo_mem (ray : Ray) (rg : Rangef) (l : List Hittable)
    (acc : Option Hit) (h : Hit)
    (hres : worldHitGo ray rg l acc = some h) :
    acc = some h ∨ ∃ s ∈ l, s ray rg = some h := by
  induction l generalizing acc with
  | nil => exact Or.inl hres
  | cons s rest ih =>
    rw [worldHitGo_cons] at hres
    rcases ih _ hres with hacc | ⟨t, ht, hrep⟩
    · cases hs : s ray rg with
      | none =>
        rw [hs, stepHit_none] at hacc
        exact Or.inl hacc
      | some h0 =>
        rw [hs, stepHit_some] at hacc
        cases acc with
        | none =>
          rw [closerHit_none] at hacc
          exact Or.inr ⟨s, List.mem_cons_self s rest, hs.trans hacc⟩
        | some x =>
          rw [closerHit_some] at hacc
          split_ifs at hacc with hcmp
          · exact Or.inr ⟨s, List.mem_cons_self s rest, hs.trans hacc⟩
          · exact Or.inl hacc
    · exact Or.inr ⟨t, List.mem_cons.mpr (Or.inr ht), hrep⟩

theorem worldHitGo_minimal (ray : Ray) (rg : Rangef) (l : List Hittable)
    (acc : Option Hit) (h : Hit)
    (hres : worldHitGo ray rg l acc = some h) :
    (∀ x, acc = some x → h.distance ≤ x.distance) ∧
    (∀ s ∈ l, ∀ h', s ray rg = some h' → h.distance ≤ h'.distance) := by
  induction l generalizing acc with
  | nil =>
    refine ⟨fun x hx => ?_, fun s hs => absurd hs (List.not_mem_nil s)⟩
    rw [worldHitGo_nil, hx] at hres
    cases hres
    exact le_refl _
  | cons s rest ih =>
    rw [worldHitGo_cons] at hres
    obtain ⟨ihacc, ihrest⟩ := ih _ hres
    cases hs : s ray rg with
    | none =>
      rw [hs, stepHit_none] at ihacc
      refine ⟨ihacc, fun t ht h' hrep => ?_⟩
      rcases List.mem_cons.mp ht with rfl | ht
      · rw [hs] at hrep; cases hrep
      · exact ihrest t ht h' hrep
    | some h0 =>
      rw [hs, stepHit_some] at ihacc
      have hble : h.distance ≤ h0.distance ∧
          ∀ x, acc = some x → h.distance ≤ x.distance := by
        cases acc with
        | none =>
          rw [closerHit_none] at ihacc
          refine ⟨ihacc h0 rfl, fun x hx => ?_⟩
          cases hx
        | some x0 =>
          rw [closerHit_some] at ihacc
          split_ifs at ihacc with hcmp
          · refine ⟨ihacc h0 rfl, fun x hx => ?_⟩
            cases hx
            exact (ihacc h0 rfl).trans (le_of_lt hcmp)
          · refine ⟨(ihacc x0 rfl).trans (not_lt.mp hcmp), fun x hx => ?_⟩
            cases hx
            exact ihacc x0 rfl
      refine ⟨hble.2, fun t ht h' hrep => ?_⟩
      rcases List.mem_cons.mp ht with rfl | ht
      · rw [hs] at hrep
        cases hrep
        exact hble.1
      · exact ihrest t ht h' hrep

/-- C3: `World::hit` returns none exactly when no object reports a hit;
when it returns a hit, that hit was reported by one of the objects, its
distance is minimal among all reported hits, and — since every object
honours the contract of reporting only distances inside the caller's
interval, as `Sphere::hit` provably does (last conjunct) — the returned
distance lies inside the interval. -/
theorem world_hit_nearest (shapes : List Hittable) (ray : Ray)
    (rg : Rangef) :
    (worldHit shapes ray rg = none ↔ ∀ s ∈ shapes, s ray rg = none) ∧
    (∀ h, worldHit shapes ray rg = some h →
      (∃ s ∈ shapes, s ray rg = some h) ∧
      (∀ s ∈ shapes, ∀ h', s ray rg = some h' →
        h.distance ≤ h'.distance) ∧
      ((∀ s ∈ shapes, ∀ h', s ray rg = some h' →
          rg.contains h'.distance) → rg.contains h.distance)) ∧
    (∀ (s : Sphere) (h' : Hit), sphereHit s ray rg = some h' →
      rg.contains h'.distance) := by
  refine ⟨?_, ?_, ?_⟩
  · rw [worldHit, worldHitGo_eq_none_iff]
    simp
  · intro h hres
    have hmem := worldHitGo_mem ray rg shapes none h hres
    have hmin := worldHitGo_minimal ray rg shapes none h hres
    have hmem' : ∃ s ∈ shapes, s ray rg = some h := by
      rcases hmem with hcontra | hmem
      · cases hcontra
      · exact hmem
    refine ⟨hmem', hmin.2, fun hiv => ?_⟩
    obtain ⟨s, hs, hrep⟩ := hmem'
    exact hiv s hs h hrep
  · intro s h'
    unfold sphereHit
    dsimp only
    split_ifs with h1 h2 h3
    · intro hcontra; cases hcontra
    · intro hsome
      cases hsome
      exact h2
    · intro hsome
      cases hsome
      exact h3
    · intro hcontra; cases hcontra

/-- A hit at distance 1 used by the witnesses. -/
def hitOne : Hit := ⟨⟨0, 0, -1⟩, ⟨0, 0, 1⟩, 1, .lambertian ⟨1, 0, 0⟩⟩

/-- A `dyn Hittable` that always reports `hitOne`. -/
def shapeOne : Hittable := fun _ _ => some hitOne

/-- Witness for C3: in a world holding the single shape `shapeOne`,
`World::hit` returns its hit, that hit is reported by a member shape, and
its distance 1 lies inside `[0.01, ∞)`. -/
theorem world_hit_nearest_witness :
    worldHit [shapeOne] rayFwd shadowRange = some hitOne ∧
    (∃ s ∈ [shapeOne], s rayFwd shadowRange = some hitOne) ∧
    shadowRange.contains hitOne.distance := by
  have heval : worldHit [shapeOne] rayFwd shadowRange = some hitOne := rfl
  have hcont1 : shadowRange.contains (1 : ℝ) := by
    constructor
    · show ((0.01 : ℝ) : EReal) ≤ ((1 : ℝ) : EReal)
      exact_mod_cast (by norm_num : (0.01 : ℝ) ≤ 1)
    · exact EReal.coe_lt_top 1
  have key := (world_hit_nearest [shapeOne] rayFwd shadowRange).2.1
    hitOne heval
  refine ⟨heval, key.1, key.2.2 ?_⟩
  intro s hs h' hrep
  rcases List.mem_cons.mp hs with rfl | hcontra
  · have : h' = hitOne := by
      have := hrep.symm.trans (rfl : shapeOne rayFwd shadowRange = some hitOne)
      cases this
      rfl
    rw [this]
    exact hcont1
  · exact absurd hcontra (List.not_mem_nil s)

/-! ### Insertion order and World::hit (C4) -/

/-- Folding step computing the minimum of a list of distances, mirroring
how the scan of `World::hit` updates the distance of the closest hit. -/
def ominStep (acc : Option ℝ) (d : ℝ) : Option ℝ :=
  match acc with
  | none => some d
  | some x => some (min x d)

/-- The minimum of a list of reported distances (none on the empty list). -/
def minDistance (ds : List ℝ) : Option ℝ :=
  ds.foldl ominStep none

theorem closerHit_map_distance (acc : Option Hit) (h : Hit) :
    Option.map Hit.distance (closerHit acc h) =
      ominStep (Option.map Hit.distance acc) h.distance := by
  cases acc with
  | none => rfl
  | some x =>
    rw [closerHit_some]
    simp only [ominStep, Option.map_some]
    split_ifs with hcmp
    · simp [min_eq_right (le_of_lt hcmp)]
    · simp [min_eq_left (not_lt.mp hcmp)]

theorem worldHitGo_map_distance (ray : Ray) (rg : Rangef)
    (l : List Hittable) (acc : Option Hit) :
    Option.map Hit.distance (worldHitGo ray rg l acc) =
      (l.filterMap fun s => Option.map Hit.distance (s ray rg)).foldl
        ominStep (Option.map Hit.distance acc) := by
  induction l generalizing acc with
  | nil => rfl
  | cons s rest ih =>
    rw [worldHitGo_cons, ih]
    cases hs : s ray rg with
    | none =>
      rw [List.filterMap_cons]
      simp [hs, stepHit_none]
    | some h =>
      simp only [hs, List.filterMap_cons, Option.map_some, stepHit_some,
        closerHit_map_distance, List.foldl_cons]
      rfl

theorem foldl_ominStep_some (ds : List ℝ) (a : ℝ) :
    ds.foldl ominStep (some a) = some (ds.foldl min a) := by
  induction ds generalizing a with
  | nil => rfl
  | cons d rest ih => simp [ominStep, ih]

theorem foldl_min_lb (ds : List ℝ) (a : ℝ) :
    ds.foldl min a ≤ a ∧ ∀ d ∈ ds, ds.foldl min a ≤ d := by
  induction ds generalizing a with
  | nil => simp
  | cons d rest ih =>
    obtain ⟨h1, h2⟩ := ih (min a d)
    rw [List.foldl_cons]
    refine ⟨h1.trans (min_le_left a d), fun x hx => ?_⟩
    rcases List.mem_cons.mp hx with rfl | hx
    · exact h1.trans (min_le_right a x)
    · exact h2 x hx

theorem foldl_min_mem (ds : List ℝ) (a : ℝ) :
    ds.foldl min a = a ∨ ds.foldl min a ∈ ds := by
  induction ds generalizing a with
  | nil => exact Or.inl rfl
  | cons d rest ih =>
    rw [List.foldl_cons]
    rcases ih (min a d) with heq | hmem
    · rcases min_choice a d with had | had
      · exact Or.inl (heq.trans had)
      · exact Or.inr (List.mem_cons.mpr (Or.inl (heq.trans had)))
    · exact Or.inr (List.mem_cons.mpr (Or.inr hmem))

theorem minDistance_eq_some_iff (ds : List ℝ) (m : ℝ) :
    minDistance ds = some m ↔ m ∈ ds ∧ ∀ d ∈ ds, m ≤ d := by
  cases ds with
  | nil => simp [minDistance]
  | cons d rest =>
    rw [minDistance, List.foldl_cons]
    have hstep : ominStep none d = some d := rfl
    rw [hstep, foldl_ominStep_some]
    have hlb := foldl_min_lb rest d
    have hmem : rest.foldl min d ∈ d :: rest := by
      rcases foldl_min_mem rest d with heq | hm
      · rw [heq]
        exact List.mem_cons_self d rest
      · exact List.mem_cons.mpr (Or.inr hm)
    have hall : ∀ x ∈ d :: rest, rest.foldl min d ≤ x := by
      intro x hx
      rcases List.mem_cons.mp hx with rfl | hx
      · exact hlb.1
      · exact hlb.2 x hx
    constructor
    · rintro heq
      cases heq
      exact ⟨hmem, hall⟩
    · rintro ⟨hm, hbound⟩
      have h1 : m ≤ rest.foldl min d := hbound _ hmem
      have h2 : rest.foldl min d ≤ m := hall m hm
      rw [le_antisymm h2 h1]

theorem minDistance_none_iff (ds : List ℝ) :
    minDistance ds = none ↔ ds = [] := by
  cases ds with
  | nil => simp [minDistance]
  | cons d rest =>
    rw [minDistance, List.foldl_cons]
    have hstep : ominStep none d = some d := rfl
    rw [hstep, foldl_ominStep_some]
    simp

theorem minDistance_perm (ds1 ds2 : List ℝ) (hp : ds1.Perm ds2) :
    minDistance ds1 = minDistance ds2 := by
  cases h1 : minDistance ds1 with
  | none =>
    have : ds1 = [] := (minDistance_none_iff ds1).mp h1
    subst this
    have : ds2 = [] := hp.symm.eq_nil
    subst this
    rfl
  | some m =>
    obtain ⟨hm, hbound⟩ := (minDistance_eq_some_iff ds1 m).mp h1
    symm
    rw [minDistance_eq_some_iff]
    exact ⟨hp.mem_iff.mp hm, fun d hd => hbound d (hp.mem_iff.mpr hd)⟩

/-- C4 (amended): for any two insertion orders of the same objects,
`World::hit` agrees on whether a hit exists and on the distance of the
returned hit. (The full result can differ when two objects tie for the
minimal distance; see the counterexample.) -/
theorem world_hit_insertion_order (ray : Ray) (rg : Rangef)
    (l1 l2 : List Hittable) (hp : l1.Perm l2) :
    Option.map Hit.distance (worldHit l1 ray rg) =
      Option.map Hit.distance (worldHit l2 ray rg) ∧
    (worldHit l1 ray rg = none ↔ worldHit l2 ray rg = none) := by
  have hmap : ∀ l : List Hittable,
      Option.map Hit.distance (worldHit l ray rg) =
        minDistance (l.filterMap fun s => Option.map Hit.distance (s ray rg)) :=
    fun l => worldHitGo_map_distance ray rg l none
  have hpf := hp.filterMap (fun s => Option.map Hit.distance (s ray rg))
  have hdist : Option.map Hit.distance (worldHit l1 ray rg) =
      Option.map Hit.distance (worldHit l2 ray rg) := by
    rw [hmap l1, hmap l2]
    exact minDistance_perm _ _ hpf
  refine ⟨hdist, ?_⟩
  constructor
  · intro h1
    have : Option.map Hit.distance (worldHit l2 ray rg) = none := by
      rw [← hdist, h1]
      rfl
    exact Option.map_eq_none'.mp this
  · intro h2
    have : Option.map Hit.distance (worldHit l1 ray rg) = none := by
      rw [hdist, h2]
      rfl
    exact Option.map_eq_none'.mp this

/-- A hit at distance 2 used by the C4 witness. -/
def hitTwo : Hit := ⟨⟨0, 0, -2⟩, ⟨0, 0, 1⟩, 2, .lambertian ⟨1, 0, 0⟩⟩

/-- A `dyn Hittable` that always reports `hitTwo`. -/
def shapeTwo : Hittable := fun _ _ => some hitTwo

/-- Witness for C4 (amended): swapping two shapes with distances 1 and 2
leaves the reported distance unchanged, and that distance is 1. -/
theorem world_hit_insertion_order_witness :
    Option.map Hit.distance
        (worldHit [shapeOne, shapeTwo] rayFwd shadowRange) =
      Option.map Hit.distance
        (worldHit [shapeTwo, shapeOne] rayFwd shadowRange) ∧
    Option.map Hit.distance
        (worldHit [shapeOne, shapeTwo] rayFwd shadowRange) = some 1 := by
  constructor
  · exact (world_hit_insertion_order rayFwd shadowRange _ _
      (List.Perm.swap shapeTwo shapeOne [])).1
  · have h1 : shapeOne rayFwd shadowRange = some hitOne := rfl
    have h2 : shapeTwo rayFwd shadowRange = some hitTwo := rfl
    rw [worldHit, worldHitGo_cons, h1, stepHit_some, closerHit_none,
      worldHitGo_cons, h2, stepHit_some, closerHit_some]
    rw [if_neg (by norm_num [hitOne, hitTwo] : ¬hitOne.distance > hitTwo.distance)]
    rfl

/-- A helper evaluating `Sphere::hit` in the branch where the discriminant
is positive and the smaller root is accepted. -/
theorem sphereHit_pos_first (s : Sphere) (ray : Ray) (rg : Rangef)
    (a b c disc t1 : ℝ)
    (ha : a = ray.direction.length_squared)
    (hb : b = ray.direction.dot (ray.origin - s.center))
    (hc : c = (ray.origin - s.center).length_squared - s.radius * s.radius)
    (hdisc : disc = b * b - a * c)
    (ht1 : t1 = (-b - Real.sqrt disc) / a)
    (hpos : 0 < disc) (hin : rg.contains t1) :
    sphereHit s ray rg =
      some ⟨ray.pointAt t1, (ray.pointAt t1 - s.center) / s.radius, t1,
        s.material⟩ := by
  subst ha hb hc hdisc ht1
  unfold sphereHit
  rw [if_neg (not_le.mpr hpos), if_pos hin]

/-- The coincident green sphere: same center and radius as `sphereFront`,
different material. -/
def sphereGreen : Sphere := ⟨⟨0, 0, -2⟩, 1, .lambertian ⟨0, 1, 0⟩⟩

theorem sphereHit_front_eval (m : Material) :
    sphereHit ⟨⟨0, 0, -2⟩, 1, m⟩ rayFwd shadowRange =
      some ⟨rayFwd.pointAt 1, (rayFwd.pointAt 1 - ⟨0, 0, -2⟩) / (1 : ℝ), 1,
        m⟩ := by
  have hcont : shadowRange.contains 1 := by
    constructor
    · show ((0.01 : ℝ) : EReal) ≤ ((1 : ℝ) : EReal)
      exact_mod_cast (by norm_num : (0.01 : ℝ) ≤ 1)
    · exact EReal.coe_lt_top 1
  have hA : rayFwd.direction.length_squared = 1 := by
    simp [rayFwd, Vector3.length_squared]
  have hB : rayFwd.direction.dot
      (rayFwd.origin - (⟨0, 0, -2⟩ : Point3)) = -2 := by
    simp [rayFwd, Vector3.dot]
  have hC : (rayFwd.origin - (⟨0, 0, -2⟩ : Point3)).length_squared -
      (1 : ℝ) * 1 = 3 := by
    simp [rayFwd, Vector3.length_squared]
    norm_num
  have hT1 : (1 : ℝ) = (-(-2 : ℝ) - Real.sqrt 1) / 1 := by
    rw [Real.sqrt_one]; norm_num
  exact sphereHit_pos_first ⟨⟨0, 0, -2⟩, 1, m⟩ rayFwd shadowRange
    1 (-2) 3 1 1 hA.symm hB.symm hC.symm (by norm_num) hT1
    (by norm_num) hcont

/-- C4 counterexample: two distinct objects — coincident unit spheres with
different materials — make `World::hit` order dependent: the scan keeps
whichever of the two tied hits was inserted first, so the two insertion
orders return hits with different materials. -/
theorem world_hit_insertion_order_counterexample :
    worldHit [sphereHit sphereFront, sphereHit sphereGreen] rayFwd
        shadowRange ≠
      worldHit [sphereHit sphereGreen, sphereHit sphereFront] rayFwd
        shadowRange := by
  have hR := sphereHit_front_eval (.lambertian ⟨1, 0, 0⟩)
  have hG := sphereHit_front_eval (.lambertian ⟨0, 1, 0⟩)
  have hRF : sphereHit sphereFront rayFwd shadowRange =
      some ⟨rayFwd.pointAt 1, (rayFwd.pointAt 1 - ⟨0, 0, -2⟩) / (1 : ℝ), 1,
        .lambertian ⟨1, 0, 0⟩⟩ := hR
  have hGF : sphereHit sphereGreen rayFwd shadowRange =
      some ⟨rayFwd.pointAt 1, (rayFwd.pointAt 1 - ⟨0, 0, -2⟩) / (1 : ℝ), 1,
        .lambertian ⟨0, 1, 0⟩⟩ := hG
  have hL : worldHit [sphereHit sphereFront, sphereHit sphereGreen] rayFwd
      shadowRange =
      some ⟨rayFwd.pointAt 1, (rayFwd.pointAt 1 - ⟨0, 0, -2⟩) / (1 : ℝ), 1,
        .lambertian ⟨1, 0, 0⟩⟩ := by
    rw [worldHit, worldHitGo_cons, hRF, stepHit_some, closerHit_none,
      worldHitGo_cons, hGF, stepHit_some,
      closerHit_tie _ _ (by norm_num), worldHitGo_nil]
  have hRr : worldHit [sphereHit sphereGreen, sphereHit sphereFront] rayFwd
      shadowRange =
      some ⟨rayFwd.pointAt 1, (rayFwd.pointAt 1 - ⟨0, 0, -2⟩) / (1 : ℝ), 1,
        .lambertian ⟨0, 1, 0⟩⟩ := by
    rw [worldHit, worldHitGo_cons, hGF, stepHit_some, closerHit_none,
      worldHitGo_cons, hRF, stepHit_some,
      closerHit_tie _ _ (by norm_num), worldHitGo_nil]
  rw [hL, hRr]
  intro heq
  simp only [Option.some.injEq, Hit.mk.injEq, Material.lambertian.injEq,
    Vector3.mk.injEq] at heq
  norm_num at heq

end

end RayTracer
